import Mathlib

/-!
Shallow embedding of the benzene Hex-engine fragments under verification:
`VCUtil::GetMustplay` and `VCUtil::ValidEdgeBridge` (src/hex/VCUtil.cpp) and
the `DfsData` proof record (DfsData.hpp).  The board collaborators
(`ConstBoard`, `StoneBoard`, `HexBoard`, `VCS`) and the out-of-line members
of `DfsData` (`Pack`, `Unpack`, `Rotate`) are external to the given sources
and are modelled from the specification.
-/

/-- Modelled from the spec: a `HexPoint` is "an opaque identifier for a board
location or a virtual edge endpoint ... a reserved sentinel denotes
invalid/none" (Hex.hpp is not among the sources).  The four edges are the
points `north`, `east`, `south`, `west`; board cells carry 0-based
coordinates. -/
inductive HexPoint : Type where
  | invalid : HexPoint
  | north : HexPoint
  | east : HexPoint
  | south : HexPoint
  | west : HexPoint
  | cell (x y : Nat) : HexPoint
deriving DecidableEq, Repr

/-- Benzene `HexPointUtil::isEdge`: the four edge points. -/
def HexPoint.isEdge : HexPoint → Bool
  | .north | .east | .south | .west => true
  | _ => false

/-- Injective numeric key for a point, standing in for the bit index of the
point inside a `bitset_t` (edges come before interior cells, as in the
`HexPoint` enumeration). -/
def HexPoint.key : HexPoint → Nat
  | .invalid => 0
  | .north => 3
  | .east => 4
  | .south => 5
  | .west => 6
  | .cell x y => 7 + Nat.pair x y

theorem HexPoint.key_inj : ∀ {p q : HexPoint}, p.key = q.key → p = q := by
  intro p q h
  cases p <;> cases q <;> simp_all [HexPoint.key, Nat.pair_eq_pair] <;> omega

/-- Modelled from the spec: the constant board geometry collaborator
(`ConstBoard`, not among the sources): board dimensions, with the benzene
constraint that both are positive. -/
structure ConstBoard : Type where
  width : Nat
  height : Nat
  width_pos : 0 < width
  height_pos : 0 < height

/-- Modelled from the spec: `BoardUtil::CoordsToPoint` — maps (possibly
off-board) coordinates to a point: row `-1` is `north`, row `height` is
`south`, column `-1` is `west`, column `width` is `east`; coordinates more
than one step off the board and the two obtuse corners are invalid. -/
def coordsToPoint (brd : ConstBoard) (x y : Int) : HexPoint :=
  if x ≤ -2 ∨ (brd.width : Int) + 1 ≤ x then .invalid
  else if y ≤ -2 ∨ (brd.height : Int) + 1 ≤ y then .invalid
  else if (x = -1 ∧ y = -1) ∨ (x = (brd.width : Int) ∧ y = (brd.height : Int)) then .invalid
  else if y = -1 then .north
  else if y = (brd.height : Int) then .south
  else if x = -1 then .west
  else if x = (brd.width : Int) then .east
  else .cell x.toNat y.toNat

/-- The six neighbour directions of the hex grid (benzene
`HexPointUtil::DeltaX/DeltaY`). -/
def dirs : List (Int × Int) := [(1, 0), (1, -1), (0, -1), (-1, 0), (-1, 1), (0, 1)]

/-- Modelled from the spec: `ConstBoard::Nbs` — the neighbour list of a
point.  A cell's neighbours are the images of the six hex directions under
`coordsToPoint` with invalid results dropped and duplicates removed; an
edge's neighbours are the cells of its border row or column. -/
def ConstBoard.nbs (brd : ConstBoard) : HexPoint → List HexPoint
  | .cell x y =>
      if x < brd.width ∧ y < brd.height then
        ((dirs.map fun d => coordsToPoint brd ((x : Int) + d.1) ((y : Int) + d.2)).filter
          fun p => p != HexPoint.invalid).dedup
      else []
  | .north => (List.range brd.width).map fun x => HexPoint.cell x 0
  | .south => (List.range brd.width).map fun x => HexPoint.cell x (brd.height - 1)
  | .west => (List.range brd.height).map fun y => HexPoint.cell 0 y
  | .east => (List.range brd.height).map fun y => HexPoint.cell (brd.width - 1) y
  | .invalid => []

/-- Benzene `ConstBoard::Adjacent`. -/
def ConstBoard.Adjacent (brd : ConstBoard) (a b : HexPoint) : Bool :=
  (brd.nbs a).contains b

/-- Benzene `ConstBoard::GetCells`: the interior cells of the board. -/
def ConstBoard.getCells (brd : ConstBoard) : Finset HexPoint :=
  ((Finset.range brd.width) ×ˢ (Finset.range brd.height)).image fun p => HexPoint.cell p.1 p.2

/-- Modelled from the spec: the `StoneBoard` collaborator (not among the
sources): the constant geometry together with the occupied set
(`GetOccupied`).  In benzene the four edges are coloured from the start of
every game, so they are always occupied; this is recorded as an invariant. -/
structure StoneBoard : Type where
  Const : ConstBoard
  occupied : Finset HexPoint
  edges_occupied : ({HexPoint.north, HexPoint.east, HexPoint.south, HexPoint.west} : Finset HexPoint) ⊆ occupied

/-- Benzene `StoneBoard::GetEmpty`: interior cells not occupied. -/
def StoneBoard.getEmpty (brd : StoneBoard) : Finset HexPoint :=
  brd.Const.getCells \ brd.occupied

/-- Insert a point into a list that is sorted by `HexPoint.key`, keeping it
sorted. -/
def insertSorted (p : HexPoint) : List HexPoint → List HexPoint
  | [] => [p]
  | q :: rest => if p.key ≤ q.key then p :: q :: rest else q :: insertSorted p rest

/-- Sort a list of points by ascending key. -/
def sortByKey (l : List HexPoint) : List HexPoint := l.foldr insertSorted []

theorem insertSorted_comm_of_lt {a b : HexPoint} (h : a.key < b.key) :
    ∀ l, insertSorted a (insertSorted b l) = insertSorted b (insertSorted a l) := by
  intro l
  induction l with
  | nil => simp [insertSorted, Nat.le_of_lt h, Nat.not_le.mpr h]
  | cons c t ih =>
      by_cases hbc : b.key ≤ c.key
      · have hac : a.key ≤ c.key := le_trans (Nat.le_of_lt h) hbc
        simp [insertSorted, hbc, hac, Nat.le_of_lt h, Nat.not_le.mpr h]
      · by_cases hac : a.key ≤ c.key
        · simp [insertSorted, hbc, hac, Nat.not_le.mpr h]
        · simp [insertSorted, hbc, hac, ih]

theorem insertSorted_comm (a b : HexPoint) (l : List HexPoint) :
    insertSorted a (insertSorted b l) = insertSorted b (insertSorted a l) := by
  rcases Nat.lt_trichotomy a.key b.key with h | h | h
  · exact insertSorted_comm_of_lt h l
  · rw [HexPoint.key_inj h]
  · exact (insertSorted_comm_of_lt h l).symm

instance : LeftCommutative insertSorted := ⟨insertSorted_comm⟩

/-- Benzene `BitsetUtil::BitsetToVector`: enumerate a set of points in ascending
bit-index (key) order. -/
def bitsetToVector (c : Finset HexPoint) : List HexPoint :=
  Multiset.foldr insertSorted [] c.val

/-- The double loop of `VCUtil::ValidEdgeBridge` that collects the cells
adjacent to both `a` and `b`. -/
def commonNbs (brd : ConstBoard) (a b : HexPoint) : List HexPoint :=
  (brd.nbs a).flatMap fun n1 => (brd.nbs b).filter fun n2 => n2 == n1

/-- Result of `VCUtil::ValidEdgeBridge`: the returned flag together with the
final values of the two by-reference output parameters. -/
structure BridgeOut : Type where
  ret : Bool
  endpoint : HexPoint
  edge : HexPoint
deriving DecidableEq, Repr

/-- Benzene `VCUtil::ValidEdgeBridge` (src/hex/VCUtil.cpp).  `endpoint` and `edge`
are the incoming values of the output parameters; the wildcard arm of the
inner match models the `BenzeneAssert(adj.size() == 2)` branch, which is
proved unreachable under the preceding checks. -/
def VCUtil.ValidEdgeBridge (brd : StoneBoard) (carrier : Finset HexPoint)
    (endpoint edge : HexPoint) : BridgeOut :=
  if carrier.card ≠ 2 then ⟨false, endpoint, edge⟩
  else if (brd.occupied ∩ carrier).Nonempty then ⟨false, endpoint, edge⟩
  else
    match bitsetToVector carrier with
    | [m0, m1] =>
      if ! brd.Const.Adjacent m0 m1 then ⟨false, endpoint, edge⟩
      else
        match commonNbs brd.Const m0 m1 with
        | [a0, a1] =>
          if a0.isEdge then ⟨true, a1, a0⟩
          else if a1.isEdge then ⟨true, a0, a1⟩
          else ⟨false, endpoint, edge⟩
        | _ => ⟨false, endpoint, edge⟩
    | _ => ⟨false, endpoint, edge⟩

/-- The two players. -/
inductive HexColor : Type where
  | black : HexColor
  | white : HexColor
deriving DecidableEq, Repr

/-- Benzene `operator!` on `HexColor`: the opponent. -/
def HexColor.other : HexColor → HexColor
  | .black => .white
  | .white => .black

/-- Modelled from the spec: the per-colour connection-set collaborator
(`VCS`, not among the sources) as consulted by `GetMustplay`: whether a
full connection between the colour's two edges exists (`FullExists`), and
the intersection of the carriers of all semi connections between them
(`SemiIntersection`). -/
structure VCS : Type where
  FullExists : Bool
  SemiIntersection : Finset HexPoint

/-- Modelled from the spec: the `HexBoard` collaborator (not among the
sources): the current position (`GetPosition`) and each colour's
connection set (`Cons`). -/
structure HexBoard : Type where
  GetPosition : StoneBoard
  Cons : HexColor → VCS

/-- Benzene `VCUtil::GetMustplay` (src/hex/VCUtil.cpp). -/
def VCUtil.GetMustplay (brd : HexBoard) (color : HexColor) : Finset HexPoint :=
  if (brd.Cons color.other).FullExists then ∅
  else brd.GetPosition.getEmpty ∩ (brd.Cons color.other).SemiIntersection

/-- Benzene `DfsData` (DfsData.hpp): a solved state, stored in a TT or DB. -/
structure DfsData : Type where
  win : Bool
  flags : Nat
  numstates : Nat
  nummoves : Nat
  bestmove : HexPoint
deriving DecidableEq, Repr

/-- The default constructor `DfsData::DfsData()`. -/
def DfsData.default : DfsData :=
  ⟨false, 0, 0, 0, .invalid⟩

/-- Benzene `DfsData::Initialized`. -/
def DfsData.Initialized (d : DfsData) : Bool :=
  d.bestmove != .invalid

/-- Benzene `DfsData::ReplaceWith` — always returns true for now. -/
def DfsData.ReplaceWith (_d : DfsData) (_other : DfsData) : Bool :=
  true

/-- Little-endian 4-byte encoding of a machine word. -/
def toBytes4 (n : Nat) : List Nat :=
  [n % 256, n / 256 % 256, n / 256 / 256 % 256, n / 256 / 256 / 256 % 256]

/-- Decode a little-endian 4-byte word. -/
def fromBytes4 (b0 b1 b2 b3 : Nat) : Nat :=
  b0 + 256 * (b1 + 256 * (b2 + 256 * b3))

/-- Numeric code of a point in the serialized record (the `HexPoint`
enumeration value: edges 3..6, then interior cells in row-major order with
the maximal board stride 19). -/
def HexPoint.code : HexPoint → Nat
  | .invalid => 0
  | .north => 3
  | .east => 4
  | .south => 5
  | .west => 6
  | .cell x y => 7 + y * 19 + x

/-- Inverse of `HexPoint.code` on in-range points. -/
def pointFromCode (n : Nat) : HexPoint :=
  if n = 3 then .north
  else if n = 4 then .east
  else if n = 5 then .south
  else if n = 6 then .west
  else if 7 ≤ n then .cell ((n - 7) % 19) ((n - 7) / 19)
  else .invalid

/-- A point representable in the packed format: an edge, the invalid
sentinel, or a cell within the maximal 19 by 19 board. -/
def HexPoint.validCode : HexPoint → Bool
  | .cell x y => x < 19 && y < 19
  | _ => true

/-- Valid field values of a record: the flag words fit in 32 bits and the
best move is representable. -/
def DfsData.ValidFields (d : DfsData) : Bool :=
  d.flags < 2 ^ 32 && d.numstates < 2 ^ 32 && d.nummoves < 2 ^ 32 && d.bestmove.validCode

/-- Modelled from the spec: `DfsData::PackedSize` (DfsData.cpp is not among
the sources) — the fixed byte length of a packed record. -/
def DfsData.PackedSize (_d : DfsData) : Nat := 17

/-- Modelled from the spec: `DfsData::Pack` (DfsData.cpp is not among the
sources) — deterministic fixed-width serialization of the five fields:
one byte for `win`, then four little-endian words. -/
def DfsData.Pack (d : DfsData) : List Nat :=
  (if d.win then 1 else 0) ::
    (toBytes4 d.flags ++ toBytes4 d.numstates ++ toBytes4 d.nummoves ++ toBytes4 d.bestmove.code)

/-- Modelled from the spec: `DfsData::Unpack` (DfsData.cpp is not among the
sources) — inverse of `Pack`; behaviour on byte strings of the wrong
length is a caller contract violation and is modelled by the default
record. -/
def DfsData.Unpack (t : List Nat) : DfsData :=
  match t with
  | [w, f0, f1, f2, f3, s0, s1, s2, s3, m0, m1, m2, m3, b0, b1, b2, b3] =>
      ⟨w != 0, fromBytes4 f0 f1 f2 f3, fromBytes4 s0 s1 s2 s3, fromBytes4 m0 m1 m2 m3,
        pointFromCode (fromBytes4 b0 b1 b2 b3)⟩
  | _ => DfsData.default

/-- Modelled from the spec: `BoardUtil::Rotate` (BoardUtil.cpp is not among
the sources) — the 180-degree symmetry map: edges map to their opposite
edge, an in-range cell to its point-symmetric counterpart; other points
are left unchanged. -/
def BoardUtil.Rotate (brd : ConstBoard) (p : HexPoint) : HexPoint :=
  match p with
  | .north => .south
  | .south => .north
  | .east => .west
  | .west => .east
  | .cell x y =>
      if x < brd.width ∧ y < brd.height then
        .cell (brd.width - 1 - x) (brd.height - 1 - y)
      else .cell x y
  | .invalid => .invalid

/-- Modelled from the spec: `DfsData::Rotate` (DfsData.cpp is not among the
sources) — remaps `bestmove` through the board's symmetry map. -/
def DfsData.Rotate (d : DfsData) (brd : ConstBoard) : DfsData :=
  { d with bestmove := BoardUtil.Rotate brd d.bestmove }

/-- The board's 180-degree symmetry map is an involution. -/
def RotationInvolutive (brd : ConstBoard) : Prop :=
  ∀ p, BoardUtil.Rotate brd (BoardUtil.Rotate brd p) = p

theorem rotate_point_involutive (brd : ConstBoard) : RotationInvolutive brd := by
  intro p
  cases p with
  | invalid => rfl
  | north => rfl
  | south => rfl
  | east => rfl
  | west => rfl
  | cell x y =>
      by_cases h : x < brd.width ∧ y < brd.height
      · have h2 : brd.width - 1 - x < brd.width ∧ brd.height - 1 - y < brd.height := by omega
        simp only [BoardUtil.Rotate, if_pos h, if_pos h2]
        congr 1 <;> omega
      · simp only [BoardUtil.Rotate, if_neg h]

theorem fromBytes4_toBytes4 {n : Nat} (h : n < 2 ^ 32) :
    fromBytes4 (n % 256) (n / 256 % 256) (n / 256 / 256 % 256) (n / 256 / 256 / 256 % 256) = n := by
  unfold fromBytes4
  omega

theorem code_lt {p : HexPoint} (h : p.validCode = true) : p.code < 2 ^ 32 := by
  cases p <;> simp_all [HexPoint.validCode, HexPoint.code] <;> omega

theorem pointFromCode_code {p : HexPoint} (h : p.validCode = true) :
    pointFromCode p.code = p := by
  cases p with
  | cell x y =>
      simp only [HexPoint.validCode, Bool.and_eq_true, decide_eq_true_eq] at h
      simp only [HexPoint.code, pointFromCode]
      rw [if_neg (by omega), if_neg (by omega), if_neg (by omega), if_neg (by omega),
        if_pos (by omega)]
      congr 1 <;> omega
  | invalid => rfl
  | north => rfl
  | east => rfl
  | south => rfl
  | west => rfl

/-- A small board used as a concrete input in witnesses. -/
def exampleConst33 : ConstBoard := ⟨3, 3, by decide, by decide⟩

/-- A one-cell position with only the edges occupied. -/
def exampleStone11 : StoneBoard :=
  ⟨⟨1, 1, by decide, by decide⟩, {.north, .east, .south, .west}, by decide⟩

/-- A position in which the opponent has a full connection. -/
def exampleHexBoardFull : HexBoard := ⟨exampleStone11, fun _ => ⟨true, ∅⟩⟩

/-- A position in which the opponent has neither a full connection nor any
semi connection intersecting the empty cells. -/
def exampleHexBoardNoSemi : HexBoard := ⟨exampleStone11, fun _ => ⟨false, ∅⟩⟩

/-- C3: `GetMustplay(board, color)` returns `EMPTY` when the opponent of
`color` holds a full connection end-to-end, and otherwise returns exactly
the intersection of the board's empty cells with the opponent's
semi-connections' shared carrier cells. -/
theorem getMustplay_cases : ∀ (brd : HexBoard) (color : HexColor),
    ((brd.Cons color.other).FullExists = true → VCUtil.GetMustplay brd color = ∅) ∧
    ((brd.Cons color.other).FullExists = false →
      VCUtil.GetMustplay brd color =
        brd.GetPosition.getEmpty ∩ (brd.Cons color.other).SemiIntersection) := by
  intro brd color
  constructor <;> intro h <;> simp [VCUtil.GetMustplay, h]

/-- Witness for C3 at a concrete position where the opponent is fully
connected. -/
theorem getMustplay_cases_witness :
    VCUtil.GetMustplay exampleHexBoardFull .black = ∅ :=
  (getMustplay_cases exampleHexBoardFull .black).1 rfl

/-- Counterexample to C2: a position in which the opponent has no full
connection and yet `GetMustplay` returns the empty carrier, so emptiness
is also produced by the non-losing branch. -/
theorem getMustplay_empty_without_full_connection :
    (exampleHexBoardNoSemi.Cons HexColor.black.other).FullExists = false ∧
      VCUtil.GetMustplay exampleHexBoardNoSemi .black = ∅ := by
  constructor
  · rfl
  · decide

/-- C2 (amended): `GetMustplay(board, color)` returns the empty carrier if
and only if the opponent of `color` already has a full connection or the
opponent's semi-connection intersection has no empty cell in common with
the position; emptiness is therefore not exclusive to the full-connection
branch. -/
theorem getMustplay_empty_iff : ∀ (brd : HexBoard) (color : HexColor),
    VCUtil.GetMustplay brd color = ∅ ↔
      ((brd.Cons color.other).FullExists = true ∨
        brd.GetPosition.getEmpty ∩ (brd.Cons color.other).SemiIntersection = ∅) := by
  intro brd color
  by_cases h : (brd.Cons color.other).FullExists <;> simp [VCUtil.GetMustplay, h]

/-- C5: unpacking the bytes produced by packing a record with valid field
values yields the original record. -/
theorem unpack_pack_roundtrip : ∀ d : DfsData, d.ValidFields = true →
    DfsData.Unpack d.Pack = d := by
  intro d h
  obtain ⟨win, flags, numstates, nummoves, bestmove⟩ := d
  simp only [DfsData.ValidFields, Bool.and_eq_true, decide_eq_true_eq] at h
  obtain ⟨⟨⟨h1, h2⟩, h3⟩, h4⟩ := h
  simp only [DfsData.Pack, toBytes4, List.cons_append, List.nil_append, DfsData.Unpack]
  congr 1
  · cases win <;> rfl
  · exact fromBytes4_toBytes4 h1
  · exact fromBytes4_toBytes4 h2
  · exact fromBytes4_toBytes4 h3
  · rw [fromBytes4_toBytes4 (code_lt h4)]
    exact pointFromCode_code h4

/-- Witness for C5 at a concrete record. -/
theorem unpack_pack_roundtrip_witness :
    DfsData.ValidFields ⟨true, 3, 12, 4, .cell 2 5⟩ = true ∧
      DfsData.Unpack (DfsData.Pack ⟨true, 3, 12, 4, .cell 2 5⟩) = ⟨true, 3, 12, 4, .cell 2 5⟩ :=
  ⟨by decide, unpack_pack_roundtrip _ (by decide)⟩

/-- C6: for a board whose 180-degree symmetry map is an involution,
applying `Rotate` twice returns the original record. -/
theorem rotate_rotate_id : ∀ (brd : ConstBoard) (d : DfsData),
    RotationInvolutive brd → (d.Rotate brd).Rotate brd = d := by
  intro brd d h
  obtain ⟨win, flags, numstates, nummoves, bestmove⟩ := d
  simp only [DfsData.Rotate]
  exact congrArg _ (h bestmove)

/-- Witness for C6 at a concrete record and board. -/
theorem rotate_rotate_id_witness :
    (DfsData.Rotate (DfsData.Rotate ⟨true, 0, 5, 2, .cell 1 2⟩ exampleConst33) exampleConst33)
      = ⟨true, 0, 5, 2, .cell 1 2⟩ :=
  rotate_rotate_id exampleConst33 _ (rotate_point_involutive exampleConst33)

/-- C7: a default-constructed record is uninitialized, and `Initialized`
holds exactly when `bestmove` is not the invalid sentinel. -/
theorem initialized_iff_bestmove_valid :
    DfsData.default.Initialized = false ∧
      ∀ d : DfsData, (d.Initialized = true ↔ d.bestmove ≠ .invalid) :=
  ⟨rfl, fun d => by simp [DfsData.Initialized]⟩

/-- C8: the storage-collision replacement policy is unconditional
replacement. -/
theorem replaceWith_always_true : ∀ d other : DfsData, d.ReplaceWith other = true :=
  fun _ _ => rfl

theorem coordsToPoint_eq_north {brd : ConstBoard} {u v : Int} :
    coordsToPoint brd u v = .north ↔ (v = -1 ∧ 0 ≤ u ∧ u ≤ (brd.width : Int)) := by
  unfold coordsToPoint
  split_ifs <;> simp <;> omega

theorem coordsToPoint_eq_south {brd : ConstBoard} {u v : Int} :
    coordsToPoint brd u v = .south ↔
      (v = (brd.height : Int) ∧ -1 ≤ u ∧ u < (brd.width : Int)) := by
  unfold coordsToPoint
  split_ifs <;> simp <;> omega

theorem coordsToPoint_eq_west {brd : ConstBoard} {u v : Int} :
    coordsToPoint brd u v = .west ↔ (u = -1 ∧ 0 ≤ v ∧ v < (brd.height : Int)) := by
  unfold coordsToPoint
  split_ifs <;> simp <;> omega

theorem coordsToPoint_eq_east {brd : ConstBoard} {u v : Int} :
    coordsToPoint brd u v = .east ↔
      (u = (brd.width : Int) ∧ 0 ≤ v ∧ v < (brd.height : Int)) := by
  unfold coordsToPoint
  split_ifs <;> simp <;> omega

theorem coordsToPoint_eq_cell {brd : ConstBoard} {u v : Int} {a b : Nat} :
    coordsToPoint brd u v = .cell a b ↔
      (0 ≤ u ∧ u < (brd.width : Int) ∧ 0 ≤ v ∧ v < (brd.height : Int) ∧
        (a : Int) = u ∧ (b : Int) = v) := by
  unfold coordsToPoint
  split_ifs <;> simp <;> omega

theorem mem_nbs_cell {brd : ConstBoard} {x y : Nat} (hx : x < brd.width)
    (hy : y < brd.height) {p : HexPoint} :
    p ∈ brd.nbs (.cell x y) ↔
      ((∃ d ∈ dirs, coordsToPoint brd ((x : Int) + d.1) ((y : Int) + d.2) = p) ∧
        p ≠ .invalid) := by
  simp only [ConstBoard.nbs]
  rw [if_pos ⟨hx, hy⟩]
  simp only [List.mem_dedup, List.mem_filter, List.mem_map, bne_iff_ne]

theorem north_mem_nbs {brd : ConstBoard} {x y : Nat} :
    (HexPoint.north ∈ brd.nbs (.cell x y)) ↔
      (x < brd.width ∧ y < brd.height ∧ y = 0) := by
  by_cases hb : x < brd.width ∧ y < brd.height
  · rw [mem_nbs_cell hb.1 hb.2]
    simp [dirs, coordsToPoint_eq_north]
    omega
  · simp only [ConstBoard.nbs]
    rw [if_neg hb]
    simp
    omega

theorem south_mem_nbs {brd : ConstBoard} {x y : Nat} :
    (HexPoint.south ∈ brd.nbs (.cell x y)) ↔
      (x < brd.width ∧ y < brd.height ∧ y + 1 = brd.height) := by
  by_cases hb : x < brd.width ∧ y < brd.height
  · rw [mem_nbs_cell hb.1 hb.2]
    simp [dirs, coordsToPoint_eq_south]
    omega
  · simp only [ConstBoard.nbs]
    rw [if_neg hb]
    simp
    omega

theorem west_mem_nbs {brd : ConstBoard} {x y : Nat} :
    (HexPoint.west ∈ brd.nbs (.cell x y)) ↔
      (x < brd.width ∧ y < brd.height ∧ x = 0) := by
  by_cases hb : x < brd.width ∧ y < brd.height
  · rw [mem_nbs_cell hb.1 hb.2]
    simp [dirs, coordsToPoint_eq_west]
    omega
  · simp only [ConstBoard.nbs]
    rw [if_neg hb]
    simp
    omega

theorem east_mem_nbs {brd : ConstBoard} {x y : Nat} :
    (HexPoint.east ∈ brd.nbs (.cell x y)) ↔
      (x < brd.width ∧ y < brd.height ∧ x + 1 = brd.width) := by
  by_cases hb : x < brd.width ∧ y < brd.height
  · rw [mem_nbs_cell hb.1 hb.2]
    simp [dirs, coordsToPoint_eq_east]
    omega
  · simp only [ConstBoard.nbs]
    rw [if_neg hb]
    simp
    omega

theorem cell_mem_nbs {brd : ConstBoard} {x y a b : Nat} :
    (HexPoint.cell a b ∈ brd.nbs (.cell x y)) ↔
      (x < brd.width ∧ y < brd.height ∧ a < brd.width ∧ b < brd.height ∧
        (∃ d ∈ dirs, (a : Int) = (x : Int) + d.1 ∧ (b : Int) = (y : Int) + d.2)) := by
  by_cases hb : x < brd.width ∧ y < brd.height
  · rw [mem_nbs_cell hb.1 hb.2]
    simp [dirs, coordsToPoint_eq_cell]
    omega
  · simp only [ConstBoard.nbs]
    rw [if_neg hb]
    simp [dirs]
    omega

theorem invalid_not_mem_nbs {brd : ConstBoard} {p : HexPoint} :
    HexPoint.invalid ∉ brd.nbs p := by
  cases p with
  | invalid => simp [ConstBoard.nbs]
  | north => simp [ConstBoard.nbs]
  | east => simp [ConstBoard.nbs]
  | south => simp [ConstBoard.nbs]
  | west => simp [ConstBoard.nbs]
  | cell x y =>
      simp only [ConstBoard.nbs]
      split
      · simp
      · simp

theorem nodup_nbs (brd : ConstBoard) (p : HexPoint) : (brd.nbs p).Nodup := by
  cases p with
  | invalid => simp [ConstBoard.nbs]
  | north =>
      simp only [ConstBoard.nbs]
      exact (List.nodup_range _).map fun a b h => by simpa using h
  | south =>
      simp only [ConstBoard.nbs]
      exact (List.nodup_range _).map fun a b h => by simpa using h
  | west =>
      simp only [ConstBoard.nbs]
      exact (List.nodup_range _).map fun a b h => by simpa using h
  | east =>
      simp only [ConstBoard.nbs]
      exact (List.nodup_range _).map fun a b h => by simpa using h
  | cell x y =>
      simp only [ConstBoard.nbs]
      split
      · exact List.nodup_dedup _
      · exact List.nodup_nil

theorem filter_beq_of_nodup : ∀ {l : List HexPoint}, l.Nodup → ∀ a : HexPoint,
    (l.filter fun n2 => n2 == a) = if a ∈ l then [a] else [] := by
  intro l
  induction l with
  | nil => intro _ a; simp
  | cons c t ih =>
      intro hl a
      rcases List.nodup_cons.mp hl with ⟨hc, ht⟩
      by_cases hca : c = a
      · subst hca
        rw [List.filter_cons_of_pos (by simp), ih ht c, if_neg hc, if_pos (by simp)]
      · rw [List.filter_cons_of_neg (by simp [hca]), ih ht a]
        by_cases hat : a ∈ t
        · rw [if_pos hat, if_pos (by simp [hat])]
        · rw [if_neg hat, if_neg (by simp [hat, Ne.symm hca])]

theorem commonNbs_eq_filter (brd : ConstBoard) (a b : HexPoint) :
    commonNbs brd a b = (brd.nbs a).filter fun n1 => decide (n1 ∈ brd.nbs b) := by
  unfold commonNbs
  induction brd.nbs a with
  | nil => rfl
  | cons c t ih =>
      rw [List.flatMap_cons, ih, filter_beq_of_nodup (nodup_nbs brd b) c, List.filter_cons]
      by_cases hc : c ∈ brd.nbs b
      · simp [hc]
      · simp [hc]

theorem mem_commonNbs {brd : ConstBoard} {a b r : HexPoint} :
    r ∈ commonNbs brd a b ↔ (r ∈ brd.nbs a ∧ r ∈ brd.nbs b) := by
  rw [commonNbs_eq_filter, List.mem_filter]
  simp

theorem nodup_commonNbs (brd : ConstBoard) (a b : HexPoint) :
    (commonNbs brd a b).Nodup := by
  rw [commonNbs_eq_filter]
  exact (nodup_nbs brd a).filter _

theorem length_eq_two_of_mem_iff {l : List HexPoint} (hl : l.Nodup) {p q : HexPoint}
    (hpq : p ≠ q) (h : ∀ r, r ∈ l ↔ (r = p ∨ r = q)) : l.length = 2 := by
  have hfin : l.toFinset = {p, q} := by
    ext r
    simp [List.mem_toFinset, h r]
  calc l.length = l.toFinset.card := (List.toFinset_card_of_nodup hl).symm
  _ = 2 := by rw [hfin]; exact Finset.card_pair hpq

theorem common_pair_horiz {brd : ConstBoard} {x y : Nat}
    (hx : x + 1 < brd.width) (hy : y < brd.height) :
    ∃ p q : HexPoint, p ≠ q ∧
      (∀ r, (r ∈ brd.nbs (.cell x y) ∧ r ∈ brd.nbs (.cell (x + 1) y)) ↔ (r = p ∨ r = q)) ∧
      (p.isEdge = true → q.isEdge = true → brd.width = 1 ∨ brd.height = 1) := by
  refine ⟨if y = 0 then HexPoint.north else HexPoint.cell (x + 1) (y - 1),
    if y + 1 = brd.height then HexPoint.south else HexPoint.cell x (y + 1), ?_, ?_, ?_⟩
  · split_ifs <;> simp <;> omega
  · intro r
    split_ifs with h1 h2 <;> cases r <;>
      simp [north_mem_nbs, south_mem_nbs, west_mem_nbs, east_mem_nbs, cell_mem_nbs,
        invalid_not_mem_nbs, dirs] <;> omega
  · split_ifs <;> simp [HexPoint.isEdge] <;> omega

theorem common_pair_vert {brd : ConstBoard} {x y : Nat}
    (hx : x < brd.width) (hy : y + 1 < brd.height) :
    ∃ p q : HexPoint, p ≠ q ∧
      (∀ r, (r ∈ brd.nbs (.cell x y) ∧ r ∈ brd.nbs (.cell x (y + 1))) ↔ (r = p ∨ r = q)) ∧
      (p.isEdge = true → q.isEdge = true → brd.width = 1 ∨ brd.height = 1) := by
  refine ⟨if x + 1 = brd.width then HexPoint.east else HexPoint.cell (x + 1) y,
    if x = 0 then HexPoint.west else HexPoint.cell (x - 1) (y + 1), ?_, ?_, ?_⟩
  · split_ifs <;> simp <;> omega
  · intro r
    split_ifs with h1 h2 <;> cases r <;>
      simp [north_mem_nbs, south_mem_nbs, west_mem_nbs, east_mem_nbs, cell_mem_nbs,
        invalid_not_mem_nbs, dirs] <;> omega
  · split_ifs <;> simp [HexPoint.isEdge] <;> omega

theorem common_pair_diag {brd : ConstBoard} {x y : Nat}
    (hx : x + 1 < brd.width) (hy : y + 1 < brd.height) :
    ∃ p q : HexPoint, p ≠ q ∧
      (∀ r, (r ∈ brd.nbs (.cell x (y + 1)) ∧ r ∈ brd.nbs (.cell (x + 1) y)) ↔ (r = p ∨ r = q)) ∧
      (p.isEdge = true → q.isEdge = true → brd.width = 1 ∨ brd.height = 1) := by
  refine ⟨HexPoint.cell x y, HexPoint.cell (x + 1) (y + 1), ?_, ?_, ?_⟩
  · simp
  · intro r
    cases r <;>
      simp [north_mem_nbs, south_mem_nbs, west_mem_nbs, east_mem_nbs, cell_mem_nbs,
        invalid_not_mem_nbs, dirs] <;> omega
  · simp [HexPoint.isEdge]

theorem common_pair {brd : ConstBoard} {x1 y1 x2 y2 : Nat}
    (hmem : HexPoint.cell x2 y2 ∈ brd.nbs (.cell x1 y1)) :
    ∃ p q : HexPoint, p ≠ q ∧
      (∀ r, (r ∈ brd.nbs (.cell x1 y1) ∧ r ∈ brd.nbs (.cell x2 y2)) ↔ (r = p ∨ r = q)) ∧
      (p.isEdge = true → q.isEdge = true → brd.width = 1 ∨ brd.height = 1) := by
  rw [cell_mem_nbs] at hmem
  obtain ⟨h1x, h1y, h2x, h2y, d, hd, hdx, hdy⟩ := hmem
  simp only [dirs, List.mem_cons, List.not_mem_nil, or_false] at hd
  rcases hd with rfl | rfl | rfl | rfl | rfl | rfl <;> simp only at hdx hdy
  · -- direction (1, 0)
    have ex : x2 = x1 + 1 := by omega
    have ey : y2 = y1 := by omega
    subst ex; subst ey
    exact common_pair_horiz (by omega) (by omega)
  · -- direction (1, -1)
    have ey : y1 = y2 + 1 := by omega
    have ex : x2 = x1 + 1 := by omega
    subst ey; subst ex
    exact common_pair_diag (by omega) (by omega)
  · -- direction (0, -1)
    have ey : y1 = y2 + 1 := by omega
    have ex : x2 = x1 := by omega
    subst ey; subst ex
    obtain ⟨p, q, hpq, hiff, hedge⟩ := @common_pair_vert brd x2 y2 (by omega) (by omega)
    exact ⟨p, q, hpq, fun r => Iff.trans and_comm (hiff r), hedge⟩
  · -- direction (-1, 0)
    have ex : x1 = x2 + 1 := by omega
    have ey : y2 = y1 := by omega
    subst ex; subst ey
    obtain ⟨p, q, hpq, hiff, hedge⟩ := @common_pair_horiz brd x2 y2 (by omega) (by omega)
    exact ⟨p, q, hpq, fun r => Iff.trans and_comm (hiff r), hedge⟩
  · -- direction (-1, 1)
    have ex : x1 = x2 + 1 := by omega
    have ey : y2 = y1 + 1 := by omega
    subst ex; subst ey
    obtain ⟨p, q, hpq, hiff, hedge⟩ := @common_pair_diag brd x2 y1 (by omega) (by omega)
    exact ⟨p, q, hpq, fun r => Iff.trans and_comm (hiff r), hedge⟩
  · -- direction (0, 1)
    have ex : x2 = x1 := by omega
    have ey : y2 = y1 + 1 := by omega
    subst ex; subst ey
    exact common_pair_vert (by omega) (by omega)

theorem adjacent_eq_true_iff {brd : ConstBoard} {a b : HexPoint} :
    brd.Adjacent a b = true ↔ b ∈ brd.nbs a := by
  simp [ConstBoard.Adjacent]

theorem edge_occupied {brd : StoneBoard} {p : HexPoint} (h : p.isEdge = true) :
    p ∈ brd.occupied := by
  apply brd.edges_occupied
  cases p <;> simp_all [HexPoint.isEdge]

theorem adjacent_unoccupied_cells {brd : StoneBoard} {c1 c2 : HexPoint}
    (h1 : c1 ∉ brd.occupied) (h2 : c2 ∉ brd.occupied)
    (hadj : brd.Const.Adjacent c1 c2 = true) :
    ∃ x1 y1 x2 y2 : Nat, c1 = .cell x1 y1 ∧ c2 = .cell x2 y2 ∧
      HexPoint.cell x2 y2 ∈ brd.Const.nbs (.cell x1 y1) := by
  rw [adjacent_eq_true_iff] at hadj
  cases c1 with
  | invalid => simp [ConstBoard.nbs] at hadj
  | north => exact absurd (edge_occupied (by rfl)) h1
  | east => exact absurd (edge_occupied (by rfl)) h1
  | south => exact absurd (edge_occupied (by rfl)) h1
  | west => exact absurd (edge_occupied (by rfl)) h1
  | cell x1 y1 =>
      by_cases hb : x1 < brd.Const.width ∧ y1 < brd.Const.height
      · cases c2 with
        | invalid => exact absurd hadj invalid_not_mem_nbs
        | north => exact absurd (edge_occupied (by rfl)) h2
        | east => exact absurd (edge_occupied (by rfl)) h2
        | south => exact absurd (edge_occupied (by rfl)) h2
        | west => exact absurd (edge_occupied (by rfl)) h2
        | cell x2 y2 => exact ⟨x1, y1, x2, y2, rfl, rfl, hadj⟩
      · simp [ConstBoard.nbs, hb] at hadj

/-- C9: on every board, for every pair of distinct, empty, mutually adjacent
cells (the situation established by the checks preceding the assertion in
`ValidEdgeBridge`), the cells have exactly two common neighbours, so the
internal assertion `adj.size() == 2` never fires. -/
theorem commonNbs_length_two : ∀ (brd : StoneBoard) (c1 c2 : HexPoint),
    c1 ≠ c2 → c1 ∉ brd.occupied → c2 ∉ brd.occupied →
    brd.Const.Adjacent c1 c2 = true →
    (commonNbs brd.Const c1 c2).length = 2 := by
  intro brd c1 c2 _hne h1 h2 hadj
  obtain ⟨x1, y1, x2, y2, rfl, rfl, hmem⟩ := adjacent_unoccupied_cells h1 h2 hadj
  obtain ⟨p, q, hpq, hiff, -⟩ := common_pair hmem
  exact length_eq_two_of_mem_iff (nodup_commonNbs _ _ _) hpq
    fun r => Iff.trans mem_commonNbs (hiff r)

/-- A two-cell position used as a concrete input in witnesses. -/
def exampleStone22 : StoneBoard :=
  ⟨⟨2, 2, by decide, by decide⟩, {.north, .east, .south, .west}, by decide⟩

/-- Witness for C9 at a concrete board and cell pair. -/
theorem commonNbs_length_two_witness :
    HexPoint.cell 0 0 ∉ exampleStone22.occupied ∧
      exampleStone22.Const.Adjacent (.cell 0 0) (.cell 1 0) = true ∧
      (commonNbs exampleStone22.Const (.cell 0 0) (.cell 1 0)).length = 2 :=
  ⟨by decide, by decide,
    commonNbs_length_two exampleStone22 _ _ (by decide) (by decide) (by decide) (by decide)⟩

theorem mem_insertSorted {p a : HexPoint} : ∀ {l : List HexPoint},
    p ∈ insertSorted a l ↔ (p = a ∨ p ∈ l) := by
  intro l
  induction l with
  | nil => simp [insertSorted]
  | cons c t ih =>
      simp only [insertSorted]
      split
      · simp [List.mem_cons]
      · simp only [List.mem_cons, ih]
        tauto

theorem mem_bitsetToVector {c : Finset HexPoint} {p : HexPoint} :
    p ∈ bitsetToVector c ↔ p ∈ c := by
  have key : ∀ m : Multiset HexPoint, p ∈ Multiset.foldr insertSorted [] m ↔ p ∈ m := by
    intro m
    induction m using Multiset.induction_on with
    | empty => simp
    | cons a s ih => rw [Multiset.foldr_cons]; simp [mem_insertSorted, ih]
  exact (key c.val).trans Finset.mem_def.symm

theorem bitsetToVector_pair {a b : HexPoint} (h : a ≠ b) :
    bitsetToVector {a, b} = if a.key ≤ b.key then [a, b] else [b, a] := by
  unfold bitsetToVector
  rw [Finset.insert_val_of_not_mem (by simp [h]), Multiset.foldr_cons,
    Finset.singleton_val, Multiset.foldr_singleton]
  simp only [insertSorted]

theorem validEdgeBridge_spec (brd : StoneBoard) (carrier : Finset HexPoint)
    (endpoint edge : HexPoint) :
    VCUtil.ValidEdgeBridge brd carrier endpoint edge = ⟨false, endpoint, edge⟩ ∨
    (carrier.card = 2 ∧ (brd.occupied ∩ carrier) = ∅ ∧
      ∃ m0 m1 a0 a1, bitsetToVector carrier = [m0, m1] ∧
        brd.Const.Adjacent m0 m1 = true ∧
        commonNbs brd.Const m0 m1 = [a0, a1] ∧
        ((a0.isEdge = true ∧
            VCUtil.ValidEdgeBridge brd carrier endpoint edge = ⟨true, a1, a0⟩) ∨
          (a0.isEdge = false ∧ a1.isEdge = true ∧
            VCUtil.ValidEdgeBridge brd carrier endpoint edge = ⟨true, a0, a1⟩))) := by
  by_cases h1 : carrier.card ≠ 2
  · left
    simp [VCUtil.ValidEdgeBridge, h1]
  by_cases h2 : (brd.occupied ∩ carrier).Nonempty
  · left
    simp [VCUtil.ValidEdgeBridge, h1, h2]
  push_neg at h1
  obtain ⟨m0, m1, hm⟩ : ∃ m0 m1, bitsetToVector carrier = [m0, m1] := by
    obtain ⟨a, b, hab, rfl⟩ := Finset.card_eq_two.mp h1
    rw [bitsetToVector_pair hab]
    split_ifs <;> exact ⟨_, _, rfl⟩
  by_cases h3 : brd.Const.Adjacent m0 m1 = true
  case neg =>
    left
    simp [VCUtil.ValidEdgeBridge, h1, h2, hm, h3, Bool.eq_false_iff.mpr h3]
  case pos =>
    have hval : VCUtil.ValidEdgeBridge brd carrier endpoint edge =
        (match commonNbs brd.Const m0 m1 with
          | [a0, a1] =>
            if a0.isEdge then ⟨true, a1, a0⟩
            else if a1.isEdge then ⟨true, a0, a1⟩
            else (⟨false, endpoint, edge⟩ : BridgeOut)
          | _ => ⟨false, endpoint, edge⟩) := by
      simp [VCUtil.ValidEdgeBridge, h1, h2, hm, h3]
    rcases hcn : commonNbs brd.Const m0 m1 with - | ⟨a0, - | ⟨a1, - | ⟨a2, rest⟩⟩⟩
    · left; rw [hval, hcn]
    · left; rw [hval, hcn]
    · by_cases he0 : a0.isEdge = true
      · right
        refine ⟨h1, Finset.not_nonempty_iff_eq_empty.mp h2, m0, m1, a0, a1, hm, h3, hcn, ?_⟩
        left
        exact ⟨he0, by rw [hval, hcn]; simp [he0]⟩
      · by_cases he1 : a1.isEdge = true
        · right
          refine ⟨h1, Finset.not_nonempty_iff_eq_empty.mp h2, m0, m1, a0, a1, hm, h3, hcn, ?_⟩
          right
          exact ⟨Bool.eq_false_iff.mpr he0, he1, by rw [hval, hcn]; simp [he0, he1]⟩
        · left
          rw [hval, hcn]
          simp [he0, he1]
    · left; rw [hval, hcn]

/-- C10: whenever `ValidEdgeBridge` returns false, the output parameters
`endpoint` and `edge` are left completely unmodified. -/
theorem validEdgeBridge_false_frame : ∀ (brd : StoneBoard) (carrier : Finset HexPoint)
    (endpoint edge : HexPoint),
    (VCUtil.ValidEdgeBridge brd carrier endpoint edge).ret = false →
    (VCUtil.ValidEdgeBridge brd carrier endpoint edge).endpoint = endpoint ∧
      (VCUtil.ValidEdgeBridge brd carrier endpoint edge).edge = edge := by
  intro brd carrier endpoint edge h
  rcases validEdgeBridge_spec brd carrier endpoint edge with
    heq | ⟨-, -, m0, m1, a0, a1, -, -, -, hc⟩
  · rw [heq]
    exact ⟨rfl, rfl⟩
  · rcases hc with ⟨-, heq⟩ | ⟨-, -, heq⟩ <;> rw [heq] at h <;> simp at h

/-- Witness for C10 at a concrete rejected carrier. -/
theorem validEdgeBridge_false_frame_witness :
    (VCUtil.ValidEdgeBridge exampleStone22 ∅ (.cell 0 0) (.cell 1 1)).ret = false ∧
      (VCUtil.ValidEdgeBridge exampleStone22 ∅ (.cell 0 0) (.cell 1 1)).endpoint = .cell 0 0 ∧
      (VCUtil.ValidEdgeBridge exampleStone22 ∅ (.cell 0 0) (.cell 1 1)).edge = .cell 1 1 :=
  ⟨by decide, validEdgeBridge_false_frame exampleStone22 ∅ _ _ (by decide)⟩

/-- C4: `ValidEdgeBridge` returns false whenever the carrier's cardinality
is not 2, or a carrier cell is occupied, or the two carrier cells are not
adjacent, or no common neighbour of the two carrier cells is an edge. -/
theorem validEdgeBridge_false_conditions : ∀ (brd : StoneBoard) (carrier : Finset HexPoint)
    (endpoint edge : HexPoint),
    (carrier.card ≠ 2 ∨ (brd.occupied ∩ carrier).Nonempty ∨
      (∀ m0 m1, bitsetToVector carrier = [m0, m1] → brd.Const.Adjacent m0 m1 = false) ∨
      (∀ m0 m1, bitsetToVector carrier = [m0, m1] →
        ∀ p ∈ commonNbs brd.Const m0 m1, p.isEdge = false)) →
    (VCUtil.ValidEdgeBridge brd carrier endpoint edge).ret = false := by
  intro brd carrier endpoint edge h
  rcases validEdgeBridge_spec brd carrier endpoint edge with
    heq | ⟨hcard, hempty, m0, m1, a0, a1, hm, hadj, hcn, hc⟩
  · rw [heq]
  · exfalso
    rcases h with h | h | h | h
    · exact h hcard
    · rw [hempty] at h
      exact Finset.not_nonempty_empty h
    · have := h m0 m1 hm
      rw [hadj] at this
      simp at this
    · rcases hc with ⟨he, -⟩ | ⟨-, he, -⟩
      · have := h m0 m1 hm a0 (by rw [hcn]; simp)
        rw [he] at this
        simp at this
      · have := h m0 m1 hm a1 (by rw [hcn]; simp)
        rw [he] at this
        simp at this

/-- Witness for C4 at a concrete carrier of the wrong cardinality. -/
theorem validEdgeBridge_false_conditions_witness :
    (VCUtil.ValidEdgeBridge exampleStone22 {HexPoint.cell 0 0} .invalid .invalid).ret = false :=
  validEdgeBridge_false_conditions exampleStone22 {HexPoint.cell 0 0} .invalid .invalid
    (Or.inl (by decide))

theorem commonNbs_not_both_edges {brd : StoneBoard} {m0 m1 a0 a1 : HexPoint}
    (h0 : m0 ∉ brd.occupied) (h1 : m1 ∉ brd.occupied)
    (hadj : brd.Const.Adjacent m0 m1 = true)
    (hcn : commonNbs brd.Const m0 m1 = [a0, a1])
    (hw : 2 ≤ brd.Const.width) (hh : 2 ≤ brd.Const.height) :
    ¬(a0.isEdge = true ∧ a1.isEdge = true) := by
  obtain ⟨x1, y1, x2, y2, rfl, rfl, hmem⟩ := adjacent_unoccupied_cells h0 h1 hadj
  obtain ⟨p, q, hpq, hiff, hedge⟩ := common_pair hmem
  have ha0 : a0 = p ∨ a0 = q := (hiff a0).mp (mem_commonNbs.mp (by rw [hcn]; simp))
  have ha1 : a1 = p ∨ a1 = q := (hiff a1).mp (mem_commonNbs.mp (by rw [hcn]; simp))
  have hne : a0 ≠ a1 := by
    have hnd := nodup_commonNbs brd.Const (.cell x1 y1) (.cell x2 y2)
    rw [hcn] at hnd
    simp only [List.nodup_cons, List.mem_singleton] at hnd
    exact hnd.1
  rintro ⟨he0, he1⟩
  rcases ha0 with rfl | rfl
  · rcases ha1 with rfl | rfl
    · exact hne rfl
    · rcases hedge he0 he1 with hcontra | hcontra <;> omega
  · rcases ha1 with rfl | rfl
    · rcases hedge he1 he0 with hcontra | hcontra <;> omega
    · exact hne rfl

/-- A one-row position: two cells side by side, only the edges occupied. -/
def exampleStone21 : StoneBoard :=
  ⟨⟨2, 1, by decide, by decide⟩, {.north, .east, .south, .west}, by decide⟩

/-- The two-cell carrier consisting of both cells of the one-row board. -/
def exampleCarrier21 : Finset HexPoint := {.cell 0 0, .cell 1 0}

/-- Counterexample to C1: on a one-row board the two carrier cells' common
neighbour pair consists of two edges (`north` and `south`), yet
`ValidEdgeBridge` returns true and the written endpoint is an edge, not an
interior cell. -/
theorem validEdgeBridge_endpoint_edge_on_one_row_board :
    (VCUtil.ValidEdgeBridge exampleStone21 exampleCarrier21 .invalid .invalid).ret = true ∧
      ((VCUtil.ValidEdgeBridge exampleStone21 exampleCarrier21 .invalid .invalid).endpoint).isEdge
        = true := by
  decide

/-- C1 (amended): `ValidEdgeBridge` returns true only when the carrier has
exactly two cells, none occupied, the two cells (in bit order) are adjacent,
the written `edge` is a common neighbour of theirs that is an edge cell, and
the written `endpoint` is the other common neighbour; the endpoint is a
non-edge (interior) cell whenever the board is at least two cells wide and
two cells high (on a one-row or one-column board both common neighbours are
edges and the endpoint is itself an edge). -/
theorem validEdgeBridge_true_only_if : ∀ (brd : StoneBoard) (carrier : Finset HexPoint)
    (endpoint edge : HexPoint),
    (VCUtil.ValidEdgeBridge brd carrier endpoint edge).ret = true →
    carrier.card = 2 ∧ (brd.occupied ∩ carrier) = ∅ ∧
      ∃ m0 m1, bitsetToVector carrier = [m0, m1] ∧ brd.Const.Adjacent m0 m1 = true ∧
        (VCUtil.ValidEdgeBridge brd carrier endpoint edge).edge ∈ commonNbs brd.Const m0 m1 ∧
        ((VCUtil.ValidEdgeBridge brd carrier endpoint edge).edge).isEdge = true ∧
        (VCUtil.ValidEdgeBridge brd carrier endpoint edge).endpoint ∈ commonNbs brd.Const m0 m1 ∧
        (VCUtil.ValidEdgeBridge brd carrier endpoint edge).endpoint ≠
          (VCUtil.ValidEdgeBridge brd carrier endpoint edge).edge ∧
        (2 ≤ brd.Const.width → 2 ≤ brd.Const.height →
          ((VCUtil.ValidEdgeBridge brd carrier endpoint edge).endpoint).isEdge = false) := by
  intro brd carrier endpoint edge h
  rcases validEdgeBridge_spec brd carrier endpoint edge with
    heq | ⟨hcard, hempty, m0, m1, a0, a1, hm, hadj, hcn, hc⟩
  · rw [heq] at h
    simp at h
  · refine ⟨hcard, hempty, m0, m1, hm, hadj, ?_⟩
    have hne : a0 ≠ a1 := by
      have hnd := nodup_commonNbs brd.Const m0 m1
      rw [hcn] at hnd
      simp only [List.nodup_cons, List.mem_singleton] at hnd
      exact hnd.1
    have hm0occ : m0 ∉ brd.occupied := by
      intro hocc
      have hin : m0 ∈ brd.occupied ∩ carrier :=
        Finset.mem_inter.mpr ⟨hocc, mem_bitsetToVector.mp (by rw [hm]; simp)⟩
      rw [hempty] at hin
      exact Finset.not_mem_empty _ hin
    have hm1occ : m1 ∉ brd.occupied := by
      intro hocc
      have hin : m1 ∈ brd.occupied ∩ carrier :=
        Finset.mem_inter.mpr ⟨hocc, mem_bitsetToVector.mp (by rw [hm]; simp)⟩
      rw [hempty] at hin
      exact Finset.not_mem_empty _ hin
    have hnotboth : ∀ hw : 2 ≤ brd.Const.width, ∀ hh : 2 ≤ brd.Const.height,
        ¬(a0.isEdge = true ∧ a1.isEdge = true) :=
      fun hw hh => commonNbs_not_both_edges hm0occ hm1occ hadj hcn hw hh
    rcases hc with ⟨he0, heq⟩ | ⟨he0, he1, heq⟩
    · rw [heq]
      refine ⟨by rw [hcn]; simp, he0, by rw [hcn]; simp, Ne.symm hne, ?_⟩
      intro hw hh
      cases hae : a1.isEdge with
      | false => rfl
      | true => exact absurd ⟨he0, hae⟩ (hnotboth hw hh)
    · rw [heq]
      exact ⟨by rw [hcn]; simp, he1, by rw [hcn]; simp, hne, fun _ _ => he0⟩

/-- A concrete bridge carrier on the two-by-two board: the two bottom cells,
bridging to the south edge. -/
def exampleCarrier22 : Finset HexPoint := {.cell 0 1, .cell 1 1}

/-- Witness for C1 (amended) at a concrete accepted bridge. -/
theorem validEdgeBridge_true_only_if_witness :
    exampleCarrier22.card = 2 ∧ (exampleStone22.occupied ∩ exampleCarrier22) = ∅ ∧
      ∃ m0 m1, bitsetToVector exampleCarrier22 = [m0, m1] ∧
        exampleStone22.Const.Adjacent m0 m1 = true ∧
        (VCUtil.ValidEdgeBridge exampleStone22 exampleCarrier22 .invalid .invalid).edge ∈
          commonNbs exampleStone22.Const m0 m1 ∧
        ((VCUtil.ValidEdgeBridge exampleStone22 exampleCarrier22 .invalid .invalid).edge).isEdge
          = true ∧
        (VCUtil.ValidEdgeBridge exampleStone22 exampleCarrier22 .invalid .invalid).endpoint ∈
          commonNbs exampleStone22.Const m0 m1 ∧
        (VCUtil.ValidEdgeBridge exampleStone22 exampleCarrier22 .invalid .invalid).endpoint ≠
          (VCUtil.ValidEdgeBridge exampleStone22 exampleCarrier22 .invalid .invalid).edge ∧
        (2 ≤ exampleStone22.Const.width → 2 ≤ exampleStone22.Const.height →
          ((VCUtil.ValidEdgeBridge exampleStone22 exampleCarrier22 .invalid
            .invalid).endpoint).isEdge = false) :=
  validEdgeBridge_true_only_if exampleStone22 exampleCarrier22 .invalid .invalid (by decide)
